import Mathlib

/-!
Verification development for the trade-accounting core of the tradescope
repository (src/utils/portfolio.ts).  The TypeScript code is shallowly
embedded: JavaScript numbers are modeled as rationals (ℚ), calendar dates as
abstract day numbers (ℤ: `parseDate(...).getTime()` is order- and
difference-isomorphic to a day count for the midnight dates the app builds,
and date-fns' `differenceInDays` becomes integer subtraction), and the
`parseFloat` boundary of the CSV normalizer is modeled by injecting parse
outcomes (a number or NaN) into the row value.  Objects shared by reference
between the caller's array and `calculateFIFOPairs`' shallow-copied array are
modeled by tagging each record with its index in the caller's array and
threading the mutated records explicitly.
-/

/-- Transaction side, from the union type in the source
(`'BUY' | 'SELL' | 'DIVIDEND' | 'FEE' | 'DEPOSIT' | 'CORP_ACTION'`). -/
inductive Side where
  | buy
  | sell
  | dividend
  | fee
  | deposit
  | corpAction
deriving DecidableEq

/-- Trade record (the `Trade` type used throughout portfolio.ts).
`date` is the abstract day number of the record's activity date. -/
structure Trade where
  id : String
  symbol : String
  side : Side
  quantity : ℚ
  price : ℚ
  date : ℤ
  fees : ℚ
deriving DecidableEq

instance : Inhabited Trade := ⟨⟨"", "", Side.buy, 0, 0, 0, 0⟩⟩

/-- date-fns `differenceInDays(a, b)` on midnight dates: the signed number of
days from `b` to `a` (portfolio.ts line 221). -/
def differenceInDays (a b : ℤ) : ℤ := a - b

/-- Comparator of the sorts at portfolio.ts lines 169-184 and 244-259, as the
relation "compare(a, b) ≤ 0": first by symbol, then by date, and BUY before
SELL on the same symbol and day (everything else ties). -/
def tradeLE (a b : Trade) : Prop :=
  if a.symbol ≠ b.symbol then a.symbol < b.symbol
  else if a.date ≠ b.date then a.date < b.date
  else ¬(a.side = Side.sell ∧ b.side = Side.buy)

instance : DecidableRel tradeLE := fun a b => by
  unfold tradeLE
  infer_instance

/-- Stable sort of `[...trades].sort(comparator)` (portfolio.ts line 244;
JavaScript's Array.prototype.sort is stable since ES2019, and a stable sort by
a consistent comparator is unique, so insertion sort realizes it). -/
def sortTrades (trades : List Trade) : List Trade :=
  List.insertionSort tradeLE trades

/-- Same stable sort applied to records tagged with their index in the
caller's array (`[...trades]` at line 169 copies the array but shares the
record objects, so their identity must be tracked). -/
def fifoSort (l : List (ℕ × Trade)) : List (ℕ × Trade) :=
  List.insertionSort (fun a b => tradeLE a.2 b.2) l

/-- Realized-gain pair (`TradePair`), output of `calculateFIFOPairs`. -/
structure TradePair where
  buyTrade : Trade
  sellTrade : Trade
  realizedPnL : ℚ
  realizedPnLPercent : ℚ
  holdingPeriod : ℤ
deriving DecidableEq

/-- Loop of portfolio.ts lines 201-209: scan the BUY list in order while the
remaining sell quantity is positive; a lot with the sell's symbol and a
positive quantity contributes `min(remaining, lot.quantity)`, recorded in
`matchedBuys`, and its quantity field is decremented in place.  Returns the
contribution list, the final remaining quantity, and the updated BUY list. -/
def consume (sym : String) : ℚ → List (ℕ × Trade) → List (Trade × ℚ) × ℚ × List (ℕ × Trade)
  | remaining, [] => ([], remaining, [])
  | remaining, (i, b) :: rest =>
    if 0 < remaining then
      if b.symbol = sym ∧ 0 < b.quantity then
        let m := min remaining b.quantity
        let res := consume sym (remaining - m) rest
        ((b, m) :: res.1, res.2.1, (i, { b with quantity := b.quantity - m }) :: res.2.2)
      else
        let res := consume sym remaining rest
        (res.1, res.2.1, (i, b) :: res.2.2)
    else ([], remaining, (i, b) :: rest)

/-- Pair construction of portfolio.ts lines 212-233: weighted average buy
price over the contributions, realized P&L against it, percentage guarded by
`avgBuyPrice > 0`, and holding period from the first-consumed lot's date.
The virtual buy record copies the first-consumed lot with its quantity
replaced by the sell quantity and its price by the weighted average. -/
def mkPair (sellTrade : Trade) (matched : List (Trade × ℚ)) : TradePair :=
  let totalBuyValue := matched.foldl (fun sum m => sum + m.1.price * m.2) 0
  let totalBuyQuantity := matched.foldl (fun sum m => sum + m.2) 0
  let avgBuyPrice := totalBuyValue / totalBuyQuantity
  let realizedPnL := (sellTrade.price - avgBuyPrice) * sellTrade.quantity
  let realizedPnLPercent :=
    if 0 < avgBuyPrice then realizedPnL / (avgBuyPrice * sellTrade.quantity) * 100 else 0
  let first := matched.headI
  { buyTrade := { first.1 with quantity := sellTrade.quantity, price := avgBuyPrice }
    sellTrade := sellTrade
    realizedPnL := realizedPnL
    realizedPnLPercent := realizedPnLPercent
    holdingPeriod := differenceInDays sellTrade.date first.1.date }

/-- Body of the per-sell loop (portfolio.ts lines 196-235): consume lots, and
emit a pair only when the remaining quantity reached zero and at least one
contribution was made; the consumed lot list is kept either way. -/
def processSell (sellTrade : Trade) (buys : List (ℕ × Trade)) :
    Option TradePair × List (ℕ × Trade) :=
  let res := consume sellTrade.symbol sellTrade.quantity buys
  if res.2.1 = 0 ∧ res.1 ≠ [] then (some (mkPair sellTrade res.1), res.2.2)
  else (none, res.2.2)

/-- Fold of the per-sell loop over all sell records, in order, threading the
mutated BUY list from one sell to the next. -/
def processSells : List Trade → List (ℕ × Trade) → List TradePair × List (ℕ × Trade)
  | [], buys => ([], buys)
  | s :: rest, buys =>
    let r := processSell s buys
    let res := processSells rest r.2
    (r.1.toList ++ res.1, res.2)

/-- Whole run of `calculateFIFOPairs` (portfolio.ts lines 163-238) on
index-tagged records: sort a copy of the array, partition into BUY records
and the rest (line 188 sends every non-BUY record to `sellTrades`), and match
every sell.  Returns the emitted pairs and the final state of the BUY
records, whose objects the caller's array still holds. -/
def fifoRun (trades : List Trade) : List TradePair × List (ℕ × Trade) :=
  let sorted := fifoSort trades.enum
  let buys := sorted.filter fun p => decide (p.2.side = Side.buy)
  let sells := (sorted.filter fun p => decide (¬p.2.side = Side.buy)).map Prod.snd
  processSells sells buys

/-- The pair list returned by `calculateFIFOPairs`. -/
def calculateFIFOPairs (trades : List Trade) : List TradePair :=
  (fifoRun trades).1

/-- Content of the caller's array after `calculateFIFOPairs` returns: the
array itself was shallow-copied before sorting, so its length and order are
unchanged, but each record object is shared, so a BUY record reflects the
decrements applied at line 207. -/
def callerAfter (trades : List Trade) : List Trade :=
  trades.enum.map fun p =>
    match (fifoRun trades).2.find? (fun q => decide (q.1 = p.1)) with
    | some q => q.2
    | none => p.2

/-- Open position per symbol (the `Position` type). -/
structure Position where
  symbol : String
  quantity : ℚ
  avgBuyPrice : ℚ
  totalCost : ℚ
  currentPrice : ℚ
  marketValue : ℚ
  unrealizedPnL : ℚ
  unrealizedPnLPercent : ℚ
deriving DecidableEq

/-- Zero-valued position inserted on first sight of a symbol
(portfolio.ts lines 266-277). -/
def emptyPosition (symbol : String) : Position :=
  ⟨symbol, 0, 0, 0, 0, 0, 0, 0⟩

/-- Per-trade position update (portfolio.ts lines 283-317): a BUY folds the
trade into the weighted average; a SELL consumes `min(trade.quantity,
position.quantity)`, removes the average-cost basis of the sold shares, and
either recomputes the average (quantity still positive) or resets both
average and total cost to zero; other sides leave the position unchanged. -/
def applyTrade (position : Position) (trade : Trade) : Position :=
  match trade.side with
  | Side.buy =>
    let newTotalCost := position.totalCost + trade.price * trade.quantity
    let newQuantity := position.quantity + trade.quantity
    { position with
      avgBuyPrice := if 0 < newQuantity then newTotalCost / newQuantity else 0
      totalCost := newTotalCost
      quantity := newQuantity }
  | Side.sell =>
    let sellQuantity := min trade.quantity position.quantity
    if 0 < sellQuantity then
      let soldCost := position.avgBuyPrice * sellQuantity
      let newQuantity := position.quantity - sellQuantity
      let newTotalCost := position.totalCost - soldCost
      if 0 < newQuantity then
        { position with
          quantity := newQuantity
          totalCost := newTotalCost
          avgBuyPrice := newTotalCost / newQuantity }
      else
        { position with quantity := newQuantity, totalCost := 0, avgBuyPrice := 0 }
    else position
  | _ => position

/-- One step of the accumulation loop (portfolio.ts lines 263-320) on the
insertion-ordered symbol map, modeled as an association list: create the
zero position if the symbol is new, then update it in place. -/
def stepPositions (m : List (String × Position)) (trade : Trade) : List (String × Position) :=
  if m.any fun p => decide (p.1 = trade.symbol) then
    m.map fun p => if p.1 = trade.symbol then (p.1, applyTrade p.2 trade) else p
  else m ++ [(trade.symbol, applyTrade (emptyPosition trade.symbol) trade)]

/-- `calculatePositions` (portfolio.ts lines 240-326): sort a copy of the
records, fold the update over them, and return only positions with positive
quantity. -/
def calculatePositions (trades : List Trade) : List Position :=
  ((((sortTrades trades).foldl stepPositions []).map Prod.snd).filter
    fun p => decide (0 < p.quantity))

/-- Outcome of JavaScript `parseFloat` on a field: a number or NaN. -/
inductive JsNum where
  | nan
  | num (val : ℚ)
deriving DecidableEq

/-- JavaScript `Math.abs`, NaN-propagating. -/
def jsAbs : JsNum → JsNum
  | JsNum.nan => JsNum.nan
  | JsNum.num v => JsNum.num |v|

/-- JavaScript division as used by the normalizer, NaN-propagating.  The
divisor is the already-validated quantity, which is strictly positive at
every call site, so the division-by-zero case (JavaScript Infinity) is
unreachable and mapped to NaN here. -/
def jsDiv : JsNum → JsNum → JsNum
  | JsNum.num a, JsNum.num b => if b = 0 then JsNum.nan else JsNum.num (a / b)
  | _, _ => JsNum.nan

/-- Raw CSV row after Papa Parse, with the lexical layer abstracted:
`instrument`/`transCode` are `none` when the field is missing or empty
(falsy in the source's `!row.Instrument` checks), `quantity` is the
`parseFloat` outcome of the cleaned Quantity string (a missing field defaults
to the string "0", hence to `num 0`), `amount` is the amount value after the
blank-handling of lines 99-103 (blank gives `num 0`, otherwise the
`parseFloat` outcome of the stripped string), `activityDate` is the raw date
field, and `dateVal` is the abstract day number the date string denotes. -/
structure RawRow where
  instrument : Option String
  transCode : Option String
  quantity : JsNum
  amount : JsNum
  activityDate : Option String
  dateVal : ℤ

/-- JavaScript `String.prototype.toUpperCase`, modeled character-wise (an
executable equivalent of the library `String.toUpper`). -/
def jsToUpper (s : String) : String :=
  ⟨s.data.map Char.toUpper⟩

/-- JavaScript `String.prototype.trim`: strip leading and trailing
whitespace (modeled over the ASCII whitespace classifier). -/
def jsTrim (s : String) : String :=
  ⟨((s.data.dropWhile Char.isWhitespace).reverse.dropWhile Char.isWhitespace).reverse⟩

/-- Transaction-code table of portfolio.ts lines 50-73, applied to the
upper-cased code; unrecognized codes give `none`. -/
def sideOfCode (transCode : String) : Option Side :=
  let c := jsToUpper transCode
  if c = "BUY" then some Side.buy
  else if c = "SELL" then some Side.sell
  else if c = "CDIV" then some Side.dividend
  else if c = "AFEE" then some Side.fee
  else if c = "GOLD" then some Side.fee
  else if c = "RTP" then some Side.deposit
  else if c = "SOFF" then some Side.corpAction
  else none

/-- Per-row processing of portfolio.ts lines 30-141, in source order: skip on
missing or blank instrument or missing transaction code; map the code and
keep only BUY/SELL; skip on NaN or non-positive quantity; derive the price
from the amount (`abs(amount)/quantity` for BUY, `amount/quantity` for SELL)
unless the amount equals 0, which skips; skip on NaN or non-positive price;
skip on missing or blank activity date; otherwise emit the record.  The
source's `amount !== 0 && quantity > 0` guard is modeled by the amount check
alone because `quantity > 0` was already established at line 93. -/
def processRow (row : RawRow) (index : ℕ) : Option Trade :=
  match row.instrument, row.transCode with
  | some instrument, some transCode =>
    if jsTrim instrument = "" then none
    else
      match sideOfCode transCode with
      | none => none
      | some side =>
        if ¬(side = Side.buy ∨ side = Side.sell) then none
        else
          match row.quantity with
          | JsNum.nan => none
          | JsNum.num quantity =>
            if quantity ≤ 0 then none
            else
              if row.amount ≠ JsNum.num 0 then
                let calculatedPrice :=
                  if side = Side.buy then jsDiv (jsAbs row.amount) (JsNum.num quantity)
                  else jsDiv row.amount (JsNum.num quantity)
                match calculatedPrice with
                | JsNum.nan => none
                | JsNum.num price =>
                  if price ≤ 0 then none
                  else
                    match row.activityDate with
                    | none => none
                    | some d =>
                      if jsTrim d = "" then none
                      else
                        some { id := instrument ++ "-" ++ toString index
                               symbol := jsTrim instrument
                               side := side
                               quantity := |quantity|
                               price := price
                               date := row.dateVal
                               fees := 0 }
              else none
  | _, _ => none

/-- The two fatal outcomes of `parseCSVData`: no rows at all
(line 27, "No data found in CSV file") and no surviving valid record
(line 146, "No valid trades found in CSV file"). -/
inductive ParseError where
  | emptyInput
  | noValidRecords
deriving DecidableEq

/-- `parseCSVData` (portfolio.ts lines 16-161) over the already-lexed rows:
error on an empty row list, otherwise process every row, dropping the
skipped ones, and error when nothing survives. -/
def parseCSVData (rows : List RawRow) : Except ParseError (List Trade) :=
  match rows with
  | [] => Except.error ParseError.emptyInput
  | _ :: _ =>
    let trades := rows.enum.filterMap fun p => processRow p.2 p.1
    if trades = [] then Except.error ParseError.noValidRecords
    else Except.ok trades

/-- Total quantity available in the BUY list for a symbol: the sum of the
quantity fields of the lots carrying that symbol (the bound the spec calls
"total available matching BUY quantity"). -/
def availQty (sym : String) : List (ℕ × Trade) → ℚ
  | [] => 0
  | p :: rest => (if p.2.symbol = sym then p.2.quantity else 0) + availQty sym rest

/-! Helper lemmas about the FIFO matcher. -/

/-- Relation between a tagged BUY record and its state after some amount of
lot consumption: same index and same fields except that the quantity can
only have decreased. -/
def tradeShrinks (p q : ℕ × Trade) : Prop :=
  q.1 = p.1 ∧ q.2.id = p.2.id ∧ q.2.symbol = p.2.symbol ∧ q.2.side = p.2.side ∧
  q.2.price = p.2.price ∧ q.2.date = p.2.date ∧ q.2.fees = p.2.fees ∧
  q.2.quantity ≤ p.2.quantity

lemma tradeShrinks_refl (p : ℕ × Trade) : tradeShrinks p p :=
  ⟨rfl, rfl, rfl, rfl, rfl, rfl, rfl, le_refl _⟩

lemma tradeShrinks_trans {p q r : ℕ × Trade} (h₁ : tradeShrinks p q) (h₂ : tradeShrinks q r) :
    tradeShrinks p r := by
  obtain ⟨a1, a2, a3, a4, a5, a6, a7, a8⟩ := h₁
  obtain ⟨b1, b2, b3, b4, b5, b6, b7, b8⟩ := h₂
  exact ⟨b1.trans a1, b2.trans a2, b3.trans a3, b4.trans a4, b5.trans a5,
    b6.trans a6, b7.trans a7, b8.trans a8⟩

lemma forall₂_tradeShrinks_trans : ∀ {l₁ l₂ l₃ : List (ℕ × Trade)},
    List.Forall₂ tradeShrinks l₁ l₂ → List.Forall₂ tradeShrinks l₂ l₃ →
    List.Forall₂ tradeShrinks l₁ l₃ := by
  intro l₁ l₂ l₃ h₁ h₂
  induction h₁ generalizing l₃ with
  | nil => cases h₂; exact List.Forall₂.nil
  | cons hab htail ih =>
    cases h₂ with
    | cons hbc htail₂ => exact List.Forall₂.cons (tradeShrinks_trans hab hbc) (ih htail₂)

lemma forall₂_mem_right {α β : Type} {R : α → β → Prop} :
    ∀ {l₁ : List α} {l₂ : List β}, List.Forall₂ R l₁ l₂ → ∀ b ∈ l₂, ∃ a ∈ l₁, R a b := by
  intro l₁ l₂ h
  induction h with
  | nil => intro b hb; cases hb
  | cons hab htail ih =>
    intro b hb
    rcases List.mem_cons.mp hb with hb' | hb'
    · exact ⟨_, List.mem_cons_self _ _, hb' ▸ hab⟩
    · obtain ⟨a, ha, har⟩ := ih b hb'
      exact ⟨a, List.mem_cons_of_mem _ ha, har⟩

lemma consume_shrinks (sym : String) : ∀ (r : ℚ) (buys : List (ℕ × Trade)),
    List.Forall₂ tradeShrinks buys (consume sym r buys).2.2 := by
  intro r buys
  induction buys generalizing r with
  | nil => simp [consume]
  | cons p rest ih =>
    obtain ⟨i, b⟩ := p
    by_cases hr : 0 < r
    · by_cases hm : b.symbol = sym ∧ 0 < b.quantity
      · simp only [consume, if_pos hr, if_pos hm]
        refine List.Forall₂.cons ?_ (ih _)
        refine ⟨rfl, rfl, rfl, rfl, rfl, rfl, rfl, ?_⟩
        exact sub_le_self _ (le_of_lt (lt_min hr hm.2))
      · simp only [consume, if_pos hr, if_neg hm]
        exact List.Forall₂.cons (tradeShrinks_refl _) (ih _)
    · simp only [consume, if_neg hr]
      exact List.Forall₂.cons (tradeShrinks_refl _)
        (List.forall₂_same.mpr fun x _ => tradeShrinks_refl x)

lemma processSell_snd (s : Trade) (buys : List (ℕ × Trade)) :
    (processSell s buys).2 = (consume s.symbol s.quantity buys).2.2 := by
  simp only [processSell]
  split <;> rfl

lemma processSells_cons (s : Trade) (rest : List Trade) (buys : List (ℕ × Trade)) :
    processSells (s :: rest) buys =
      ((processSell s buys).1.toList ++ (processSells rest (processSell s buys).2).1,
       (processSells rest (processSell s buys).2).2) := rfl

lemma processSells_shrinks : ∀ (sells : List Trade) (buys : List (ℕ × Trade)),
    List.Forall₂ tradeShrinks buys (processSells sells buys).2 := by
  intro sells
  induction sells with
  | nil => intro buys; exact List.forall₂_same.mpr fun x _ => tradeShrinks_refl x
  | cons s rest ih =>
    intro buys
    rw [processSells_cons]
    refine forall₂_tradeShrinks_trans ?_ (ih (processSell s buys).2)
    rw [processSell_snd]
    exact consume_shrinks _ _ _

lemma availQty_nonneg (sym : String) : ∀ (buys : List (ℕ × Trade)),
    (∀ p ∈ buys, 0 ≤ p.2.quantity) → 0 ≤ availQty sym buys := by
  intro buys
  induction buys with
  | nil => intro _; simp [availQty]
  | cons p rest ih =>
    intro h
    have hp := h p (List.mem_cons_self _ _)
    have hrest := ih fun q hq => h q (List.mem_cons_of_mem _ hq)
    simp only [availQty]
    have : 0 ≤ if p.2.symbol = sym then p.2.quantity else 0 := by
      split
      · exact hp
      · exact le_refl 0
    linarith

lemma consume_remaining_ge (sym : String) : ∀ (r : ℚ) (buys : List (ℕ × Trade)),
    (∀ p ∈ buys, 0 ≤ p.2.quantity) →
    r - availQty sym buys ≤ (consume sym r buys).2.1 := by
  intro r buys
  induction buys generalizing r with
  | nil => intro _; simp [consume, availQty]
  | cons p rest ih =>
    intro h
    obtain ⟨i, b⟩ := p
    have hb : 0 ≤ b.quantity := h (i, b) (List.mem_cons_self _ _)
    have hrest : ∀ q ∈ rest, 0 ≤ q.2.quantity := fun q hq => h q (List.mem_cons_of_mem _ hq)
    by_cases hr : 0 < r
    · by_cases hm : b.symbol = sym ∧ 0 < b.quantity
      · simp only [consume, if_pos hr, if_pos hm, availQty, if_pos hm.1]
        have hih := ih (r - min r b.quantity) hrest
        have hmin : min r b.quantity ≤ b.quantity := min_le_right _ _
        linarith
      · simp only [consume, if_pos hr, if_neg hm, availQty]
        have hih := ih r hrest
        have : 0 ≤ if b.symbol = sym then b.quantity else 0 := by
          split
          · exact hb
          · exact le_refl 0
        linarith
    · simp only [consume, if_neg hr, availQty]
      have hav := availQty_nonneg sym rest hrest
      have : 0 ≤ if b.symbol = sym then b.quantity else 0 := by
        split
        · exact hb
        · exact le_refl 0
      linarith

lemma consume_zeroes (sym : String) : ∀ (r : ℚ) (buys : List (ℕ × Trade)),
    (∀ p ∈ buys, 0 ≤ p.2.quantity) → availQty sym buys < r →
    ∀ p ∈ (consume sym r buys).2.2, p.2.symbol = sym → p.2.quantity = 0 := by
  intro r buys
  induction buys generalizing r with
  | nil => intro _ _ p hp; simp [consume] at hp
  | cons q rest ih =>
    intro h hav p hp hsym
    obtain ⟨i, b⟩ := q
    have hb : 0 ≤ b.quantity := h (i, b) (List.mem_cons_self _ _)
    have hrest : ∀ x ∈ rest, 0 ≤ x.2.quantity := fun x hx => h x (List.mem_cons_of_mem _ hx)
    have havr : 0 ≤ availQty sym rest := availQty_nonneg sym rest hrest
    have hr : 0 < r := by
      have h0 : 0 ≤ availQty sym ((i, b) :: rest) := availQty_nonneg sym _ h
      linarith
    by_cases hm : b.symbol = sym ∧ 0 < b.quantity
    · have havcons : availQty sym ((i, b) :: rest) = b.quantity + availQty sym rest := by
        simp [availQty, if_pos hm.1]
      have hlt : b.quantity < r := by rw [havcons] at hav; linarith
      have hminb : min r b.quantity = b.quantity := min_eq_right (le_of_lt hlt)
      simp only [consume, if_pos hr, if_pos hm] at hp
      rcases List.mem_cons.mp hp with hp' | hp'
      · subst hp'
        simp [hminb]
      · refine ih (r - min r b.quantity) hrest ?_ p hp' hsym
        rw [hminb]
        rw [havcons] at hav
        linarith
    · have havcons : availQty sym ((i, b) :: rest) =
          (if b.symbol = sym then b.quantity else 0) + availQty sym rest := rfl
      simp only [consume, if_pos hr, if_neg hm] at hp
      rcases List.mem_cons.mp hp with hp' | hp'
      · subst hp'
        have hbq : ¬0 < b.quantity := fun hq => hm ⟨hsym, hq⟩
        exact le_antisymm (not_lt.mp hbq) hb
      · refine ih r hrest ?_ p hp' hsym
        have : 0 ≤ if b.symbol = sym then b.quantity else 0 := by
          split
          · exact hb
          · exact le_refl 0
        rw [havcons] at hav
        linarith

lemma consume_matched_sublist (sym : String) : ∀ (r : ℚ) (buys : List (ℕ × Trade)),
    ((consume sym r buys).1.map Prod.fst).Sublist (buys.map Prod.snd) := by
  intro r buys
  induction buys generalizing r with
  | nil => simp [consume]
  | cons p rest ih =>
    obtain ⟨i, b⟩ := p
    by_cases hr : 0 < r
    · by_cases hm : b.symbol = sym ∧ 0 < b.quantity
      · simp only [consume, if_pos hr, if_pos hm, List.map_cons]
        exact List.Sublist.cons₂ _ (ih _)
      · simp only [consume, if_pos hr, if_neg hm, List.map_cons]
        exact List.Sublist.cons _ (ih _)
    · simp only [consume, if_neg hr, List.map_cons, List.map_nil]
      exact List.nil_sublist _

lemma consume_matched_symbol (sym : String) : ∀ (r : ℚ) (buys : List (ℕ × Trade)),
    ∀ c ∈ (consume sym r buys).1, c.1.symbol = sym := by
  intro r buys
  induction buys generalizing r with
  | nil => intro c hc; simp [consume] at hc
  | cons p rest ih =>
    intro c hc
    obtain ⟨i, b⟩ := p
    by_cases hr : 0 < r
    · by_cases hm : b.symbol = sym ∧ 0 < b.quantity
      · simp only [consume, if_pos hr, if_pos hm] at hc
        rcases List.mem_cons.mp hc with hc' | hc'
        · subst hc'; exact hm.1
        · exact ih _ c hc'
      · simp only [consume, if_pos hr, if_neg hm] at hc
        exact ih _ c hc
    · simp only [consume, if_neg hr] at hc
      cases hc

lemma foldl_add_map {α : Type} (f : α → ℚ) : ∀ (l : List α) (a : ℚ),
    List.foldl (fun s m => s + f m) a l = a + (l.map f).sum := by
  intro l
  induction l with
  | nil => intro a; simp
  | cons x rest ih =>
    intro a
    simp only [List.foldl_cons, List.map_cons, List.sum_cons, ih]
    ring

lemma pairs_shape : ∀ (sells : List Trade) (buys : List (ℕ × Trade)) (pair : TradePair),
    pair ∈ (processSells sells buys).1 →
    ∃ s matched, matched ≠ ([] : List (Trade × ℚ)) ∧ pair = mkPair s matched := by
  intro sells
  induction sells with
  | nil => intro buys pair hp; simp [processSells] at hp
  | cons s rest ih =>
    intro buys pair hp
    rw [processSells_cons] at hp
    rcases List.mem_append.mp hp with hp' | hp'
    · revert hp'
      simp only [processSell]
      split
      · rename_i hguard
        intro hp'
        simp only [Option.toList, List.mem_singleton] at hp'
        exact ⟨s, _, hguard.2, hp'⟩
      · intro hp'
        simp [Option.toList] at hp'
    · exact ih _ pair hp'

/-! Helper lemmas about the position accumulator. -/

/-- Invariant maintained by every completed position update: the quantity is
nonnegative and the total cost equals the average price times the quantity. -/
def PosOK (p : Position) : Prop :=
  0 ≤ p.quantity ∧ p.totalCost = p.avgBuyPrice * p.quantity

lemma posOK_empty (sym : String) : PosOK (emptyPosition sym) := by
  constructor <;> simp [emptyPosition]

lemma applyTrade_ok (pos : Position) (t : Trade) (ht : 0 ≤ t.quantity) (h : PosOK pos) :
    PosOK (applyTrade pos t) := by
  obtain ⟨hq, hc⟩ := h
  unfold applyTrade
  cases hside : t.side with
  | buy =>
    simp only
    constructor
    · simp only
      linarith
    · simp only
      split
      · rename_i hpos
        rw [div_mul_cancel₀]
        exact ne_of_gt hpos
      · rename_i hpos
        have hple : pos.quantity + t.quantity ≤ 0 := not_lt.mp hpos
        have hp0 : pos.quantity = 0 := le_antisymm (by linarith) hq
        have ht0 : t.quantity = 0 := le_antisymm (by linarith) ht
        rw [hc, hp0, ht0]
        ring
  | sell =>
    simp only
    split
    · rename_i hsq
      split
      · rename_i hq'
        constructor
        · simp only
          linarith
        · simp only
          rw [div_mul_cancel₀]
          exact ne_of_gt hq'
      · rename_i hq'
        have hle : min t.quantity pos.quantity ≤ pos.quantity := min_le_right _ _
        constructor
        · simp only
          linarith
        · simp only
          rw [zero_mul]
    · exact ⟨hq, hc⟩
  | dividend => exact ⟨hq, hc⟩
  | fee => exact ⟨hq, hc⟩
  | deposit => exact ⟨hq, hc⟩
  | corpAction => exact ⟨hq, hc⟩

lemma stepPositions_ok (m : List (String × Position)) (t : Trade) (ht : 0 ≤ t.quantity)
    (hm : ∀ p ∈ m, PosOK p.2) : ∀ p ∈ stepPositions m t, PosOK p.2 := by
  intro p hp
  unfold stepPositions at hp
  split at hp
  · rcases List.mem_map.mp hp with ⟨q, hq, hqe⟩
    by_cases hsym : q.1 = t.symbol
    · rw [if_pos hsym] at hqe
      subst hqe
      exact applyTrade_ok _ _ ht (hm q hq)
    · rw [if_neg hsym] at hqe
      subst hqe
      exact hm q hq
  · rcases List.mem_append.mp hp with hp' | hp'
    · exact hm p hp'
    · rcases List.mem_singleton.mp hp' with rfl
      exact applyTrade_ok _ _ ht (posOK_empty _)

lemma foldl_stepPositions_ok : ∀ (l : List Trade) (m : List (String × Position)),
    (∀ t ∈ l, 0 ≤ t.quantity) → (∀ p ∈ m, PosOK p.2) →
    ∀ p ∈ List.foldl stepPositions m l, PosOK p.2 := by
  intro l
  induction l with
  | nil => intro m _ hm; simpa using hm
  | cons t rest ih =>
    intro m hl hm
    simp only [List.foldl_cons]
    exact ih _ (fun x hx => hl x (List.mem_cons_of_mem _ hx))
      (stepPositions_ok m t (hl t (List.mem_cons_self _ _)) hm)

lemma mem_sortTrades {t : Trade} {l : List Trade} : t ∈ sortTrades l ↔ t ∈ l :=
  (List.perm_insertionSort _ _).mem_iff

/-! Concrete inputs used by witnesses and counterexamples. -/

def tr6 : List Trade :=
  [{ id := "AAPL-0", symbol := "AAPL", side := Side.buy, quantity := 10, price := 5,
     date := 1, fees := 0 },
   { id := "AAPL-1", symbol := "AAPL", side := Side.sell, quantity := 25, price := 6,
     date := 2, fees := 0 },
   { id := "AAPL-2", symbol := "AAPL", side := Side.buy, quantity := 8, price := 5,
     date := 3, fees := 0 }]

def posC8 : Position :=
  { symbol := "AAPL", quantity := 10, avgBuyPrice := 5, totalCost := 50, currentPrice := 0,
    marketValue := 0, unrealizedPnL := 0, unrealizedPnLPercent := 0 }

def sellC8 : Trade :=
  { id := "AAPL-9", symbol := "AAPL", side := Side.sell, quantity := 10, price := 7,
    date := 3, fees := 0 }

def sellC8b : Trade :=
  { id := "AAPL-8", symbol := "AAPL", side := Side.sell, quantity := 4, price := 7,
    date := 3, fees := 0 }

/-- C6: in `calculatePositions`, a SELL consumes
`min(record.quantity, position.quantity)`: over-selling beyond current
holdings is silently clamped (the no-shares case leaves the position
unchanged, with no error), and no position quantity is ever negative at any
point during or after the accumulation (for records with nonnegative
quantities, as the normalizer guarantees). -/
theorem positions_oversell_clamped (trades : List Trade)
    (h : ∀ t ∈ trades, 0 ≤ t.quantity) :
    (∀ l₁ l₂, sortTrades trades = l₁ ++ l₂ →
      ∀ p ∈ List.foldl stepPositions [] l₁, 0 ≤ p.2.quantity) ∧
    (∀ pos t, t.side = Side.sell → 0 < min t.quantity pos.quantity →
      (applyTrade pos t).quantity = pos.quantity - min t.quantity pos.quantity) ∧
    (∀ pos t, t.side = Side.sell → ¬0 < min t.quantity pos.quantity →
      applyTrade pos t = pos) ∧
    (∀ pos ∈ calculatePositions trades, 0 ≤ pos.quantity) := by
  refine ⟨?_, ?_, ?_, ?_⟩
  · intro l₁ l₂ hsplit p hp
    have hl : ∀ t ∈ l₁, 0 ≤ t.quantity := by
      intro t ht
      have hts : t ∈ sortTrades trades := by
        rw [hsplit]; exact List.mem_append_left _ ht
      exact h t (mem_sortTrades.mp hts)
    exact (foldl_stepPositions_ok l₁ [] hl (by intro q hq; cases hq) p hp).1
  · intro pos t hside hsq
    simp only [applyTrade, hside]
    rw [if_pos hsq]
    split <;> rfl
  · intro pos t hside hsq
    simp only [applyTrade, hside]
    rw [if_neg hsq]
  · intro pos hpos
    unfold calculatePositions at hpos
    have hdec := (List.mem_filter.mp hpos).2
    exact le_of_lt (of_decide_eq_true hdec)

def pos7 : Position :=
  { symbol := "AAPL", quantity := 8, avgBuyPrice := 5, totalCost := 40, currentPrice := 0,
    marketValue := 0, unrealizedPnL := 0, unrealizedPnLPercent := 0 }

lemma calculatePositions_tr6 : calculatePositions tr6 = [pos7] := by
  norm_num [calculatePositions, sortTrades, List.insertionSort, List.orderedInsert, tradeLE,
    stepPositions, applyTrade, emptyPosition, tr6, pos7, min_def]

lemma tr6_nonneg : ∀ t ∈ tr6, 0 ≤ t.quantity := by
  intro t ht
  simp only [tr6, List.mem_cons, List.not_mem_nil, or_false] at ht
  rcases ht with rfl | rfl | rfl <;> norm_num

/-- C6 witness: on `tr6` (a BUY of 10, an over-selling SELL of 25 silently
clamped to 10, a BUY of 8) the run returns the single position `pos7`, and
its quantity is nonnegative. -/
theorem positions_oversell_clamped_w :
    calculatePositions tr6 = [pos7] ∧ 0 ≤ pos7.quantity :=
  ⟨calculatePositions_tr6,
   (positions_oversell_clamped tr6 tr6_nonneg).2.2.2 pos7
     (by rw [calculatePositions_tr6]; exact List.mem_singleton.mpr rfl)⟩

/-- C7: every returned Position satisfies
`totalCost = avgBuyPrice * quantity` (exactly, in the rational model, hence
within every positive epsilon), the same relation holds at every observation
point after a completed update during the accumulation, and only positions
with positive quantity are returned. -/
theorem positions_cost_invariant (trades : List Trade)
    (h : ∀ t ∈ trades, 0 ≤ t.quantity) :
    (∀ l₁ l₂, sortTrades trades = l₁ ++ l₂ →
      ∀ p ∈ List.foldl stepPositions [] l₁,
        p.2.totalCost = p.2.avgBuyPrice * p.2.quantity) ∧
    (∀ pos ∈ calculatePositions trades,
      pos.totalCost = pos.avgBuyPrice * pos.quantity ∧ 0 < pos.quantity) ∧
    (∀ ε : ℚ, 0 < ε → ∀ pos ∈ calculatePositions trades,
      |pos.totalCost - pos.avgBuyPrice * pos.quantity| < ε) := by
  have hmain : ∀ pos ∈ calculatePositions trades,
      pos.totalCost = pos.avgBuyPrice * pos.quantity ∧ 0 < pos.quantity := by
    intro pos hpos
    unfold calculatePositions at hpos
    obtain ⟨hmem, hdec⟩ := List.mem_filter.mp hpos
    obtain ⟨p, hp, hpe⟩ := List.mem_map.mp hmem
    have hl : ∀ t ∈ sortTrades trades, 0 ≤ t.quantity := fun t ht =>
      h t (mem_sortTrades.mp ht)
    have hOK := foldl_stepPositions_ok (sortTrades trades) [] hl (by intro q hq; cases hq) p hp
    exact ⟨hpe ▸ hOK.2, of_decide_eq_true hdec⟩
  refine ⟨?_, hmain, ?_⟩
  · intro l₁ l₂ hsplit p hp
    have hl : ∀ t ∈ l₁, 0 ≤ t.quantity := by
      intro t ht
      have hts : t ∈ sortTrades trades := by
        rw [hsplit]; exact List.mem_append_left _ ht
      exact h t (mem_sortTrades.mp hts)
    exact (foldl_stepPositions_ok l₁ [] hl (by intro q hq; cases hq) p hp).2
  · intro ε hε pos hpos
    rw [(hmain pos hpos).1]
    simpa using hε

/-- C7 witness: the concrete run on `tr6` returns the single position
`pos7`, which satisfies the cost invariant with positive quantity. -/
theorem positions_cost_invariant_w :
    pos7.totalCost = pos7.avgBuyPrice * pos7.quantity ∧ 0 < pos7.quantity :=
  (positions_cost_invariant tr6 tr6_nonneg).2.1 pos7
    (by rw [calculatePositions_tr6]; exact List.mem_singleton.mpr rfl)

/-- C8: when a SELL reduces the position quantity to exactly 0,
`avgBuyPrice` and `totalCost` are both reset to exactly 0; when the quantity
stays positive, the stored `avgBuyPrice` equals the updated
`totalCost / quantity`. -/
theorem positions_full_liquidation_resets (pos : Position) (t : Trade)
    (hside : t.side = Side.sell) :
    (0 < min t.quantity pos.quantity → pos.quantity - min t.quantity pos.quantity = 0 →
      (applyTrade pos t).avgBuyPrice = 0 ∧ (applyTrade pos t).totalCost = 0 ∧
        (applyTrade pos t).quantity = 0) ∧
    (0 < min t.quantity pos.quantity → 0 < pos.quantity - min t.quantity pos.quantity →
      (applyTrade pos t).avgBuyPrice =
          (applyTrade pos t).totalCost / (applyTrade pos t).quantity ∧
        (applyTrade pos t).quantity = pos.quantity - min t.quantity pos.quantity) := by
  constructor
  · intro hsq hzero
    simp only [applyTrade, hside]
    rw [if_pos hsq, if_neg (by rw [hzero]; exact lt_irrefl 0)]
    exact ⟨rfl, rfl, hzero⟩
  · intro hsq hpos
    simp only [applyTrade, hside]
    rw [if_pos hsq, if_pos hpos]
    exact ⟨rfl, rfl⟩

/-- C8 witness: selling all 10 shares of `posC8` resets the basis to exact
zeros; selling 4 of them leaves `avgBuyPrice = totalCost / quantity`. -/
theorem positions_full_liquidation_resets_w :
    ((applyTrade posC8 sellC8).avgBuyPrice = 0 ∧ (applyTrade posC8 sellC8).totalCost = 0 ∧
      (applyTrade posC8 sellC8).quantity = 0) ∧
    ((applyTrade posC8 sellC8b).avgBuyPrice =
        (applyTrade posC8 sellC8b).totalCost / (applyTrade posC8 sellC8b).quantity ∧
      (applyTrade posC8 sellC8b).quantity = posC8.quantity - min sellC8b.quantity posC8.quantity) :=
  ⟨(positions_full_liquidation_resets posC8 sellC8 rfl).1
      (by norm_num [posC8, sellC8, min_def]) (by norm_num [posC8, sellC8, min_def]),
   (positions_full_liquidation_resets posC8 sellC8b rfl).2
      (by norm_num [posC8, sellC8b, min_def]) (by norm_num [posC8, sellC8b, min_def])⟩

lemma mem_fifoSort {p : ℕ × Trade} {l : List (ℕ × Trade)} : p ∈ fifoSort l ↔ p ∈ l :=
  (List.perm_insertionSort _ _).mem_iff

/-- Relation between a caller record before the call and the same record
object after the call: every field is unchanged except that the quantity can
only have decreased, and a record that is not a BUY is fully unchanged. -/
def recordEvolves (t u : Trade) : Prop :=
  u.id = t.id ∧ u.symbol = t.symbol ∧ u.side = t.side ∧ u.price = t.price ∧
  u.date = t.date ∧ u.fees = t.fees ∧ u.quantity ≤ t.quantity ∧
  (t.side ≠ Side.buy → u = t)

lemma recordEvolves_refl (t : Trade) : recordEvolves t t :=
  ⟨rfl, rfl, rfl, rfl, rfl, rfl, le_refl _, fun _ => rfl⟩

/-- C1 (amended): `calculateFIFOPairs` leaves the caller's array itself
intact (same length and order), and leaves every field of every record
unchanged except the quantity fields of BUY records, which it decrements in
place on the shared record objects (line 207), so the caller can observe
reduced BUY quantities after the call; non-BUY records are unchanged. -/
theorem fifo_mutation_confined_to_buy_quantities (trades : List Trade) :
    List.Forall₂ recordEvolves trades (callerAfter trades) := by
  have hshr : List.Forall₂ tradeShrinks
      ((fifoSort trades.enum).filter fun p => decide (p.2.side = Side.buy))
      (fifoRun trades).2 := by
    simpa [fifoRun] using processSells_shrinks
      (((fifoSort trades.enum).filter fun p => decide (¬p.2.side = Side.buy)).map Prod.snd)
      ((fifoSort trades.enum).filter fun p => decide (p.2.side = Side.buy))
  rw [List.forall₂_iff_get]
  constructor
  · simp [callerAfter]
  · intro i h₁ h₂
    simp only [List.get_eq_getElem, callerAfter, List.getElem_map, List.getElem_enum]
    rcases hfind : (fifoRun trades).2.find? (fun x => decide (x.1 = i)) with _ | qe
    · simp only [hfind]
      exact recordEvolves_refl _
    · simp only [hfind]
      have hq0 := List.find?_some hfind
      simp only [decide_eq_true_eq] at hq0
      have hqi : qe.1 = i := hq0
      have hqmem : qe ∈ (fifoRun trades).2 := List.mem_of_find?_eq_some hfind
      obtain ⟨p₀, hp₀, hps⟩ := forall₂_mem_right hshr qe hqmem
      obtain ⟨hp₀sort, hp₀side⟩ := List.mem_filter.mp hp₀
      have hp₀buy : p₀.2.side = Side.buy := of_decide_eq_true hp₀side
      have hp₀enum : p₀ ∈ trades.enum := mem_fifoSort.mp hp₀sort
      have hp₀get : trades[p₀.1]? = some p₀.2 := List.mem_enum_iff_getElem?.mp hp₀enum
      have hp₀i : p₀.1 = i := by rw [← hqi]; exact hps.1.symm
      have hti : trades[i]? = some trades[i] := List.getElem?_eq_getElem h₁
      have hpt : p₀.2 = trades[i] := by
        rw [hp₀i] at hp₀get
        rw [hti] at hp₀get
        exact (Option.some.injEq _ _).mp hp₀get.symm
      obtain ⟨hs1, hs2, hs3, hs4, hs5, hs6, hs7, hs8⟩ := hps
      rw [hpt] at hs2 hs3 hs4 hs5 hs6 hs7 hs8 hp₀buy
      exact ⟨hs2, hs3, hs4, hs5, hs6, hs7, hs8, fun hnb => absurd hp₀buy hnb⟩

def exBuyA : Trade :=
  { id := "AAPL-0", symbol := "AAPL", side := Side.buy, quantity := 100, price := 15,
    date := 1, fees := 0 }

def exSellA : Trade :=
  { id := "AAPL-1", symbol := "AAPL", side := Side.sell, quantity := 50, price := 18,
    date := 2, fees := 0 }

/-- C1 (counterexample): after `calculateFIFOPairs` on a BUY of 100 shares
followed by a SELL of 50, the caller's BUY record object holds quantity 50,
not its original 100, so the function is not pure with respect to its
caller's records. -/
theorem fifo_mutates_caller_record_cex :
    (callerAfter [exBuyA, exSellA]).map Trade.quantity = [50, 50] ∧
    [exBuyA, exSellA].map Trade.quantity = [100, 50] ∧
    callerAfter [exBuyA, exSellA] ≠ [exBuyA, exSellA] := by
  have h1 : (callerAfter [exBuyA, exSellA]).map Trade.quantity = [50, 50] := by
    norm_num [callerAfter, fifoRun, fifoSort, consume, processSell, processSells, mkPair,
      tradeLE, List.insertionSort, List.orderedInsert, exBuyA, exSellA, List.enum,
      List.enumFrom, min_def, differenceInDays]
  have h2 : [exBuyA, exSellA].map Trade.quantity = [100, 50] := by
    norm_num [exBuyA, exSellA]
  refine ⟨h1, h2, ?_⟩
  intro heq
  rw [heq, h2] at h1
  exact absurd (List.cons.injEq _ _ _ _ ▸ h1) (by norm_num)

def exSellB : Trade :=
  { id := "MSFT-0", symbol := "MSFT", side := Side.sell, quantity := 50, price := 16,
    date := 1, fees := 0 }

def exBuyB : Trade :=
  { id := "MSFT-1", symbol := "MSFT", side := Side.buy, quantity := 50, price := 10,
    date := 2, fees := 0 }

/-- C2 (counterexample): a SELL dated day 1 is matched against a BUY dated
day 2 of the same symbol — the scan of lines 201-209 has no date guard, so a
consumed lot can be dated after the sell and the emitted pair's holding
period is -1, below 0. -/
theorem fifo_matches_future_buy_cex :
    (calculateFIFOPairs [exSellB, exBuyB]).map TradePair.holdingPeriod = [-1] := by
  norm_num [calculateFIFOPairs, fifoRun, fifoSort, consume, processSell, processSells, mkPair,
    tradeLE, List.insertionSort, List.orderedInsert, exSellB, exBuyB, List.enum,
    List.enumFrom, min_def, differenceInDays]

/-- C2 (amended): lot consumption scans the sorted BUY list in order — the
contributions of a sell are a subsequence of the BUY list, all carry the
sell's symbol, and whenever the BUY list is date-sorted within each symbol
(which the chronological sort guarantees) the consumed lots come oldest
first; but consumption is not restricted to lots dated on or before the
sell, so the holding period can be negative. -/
theorem fifo_consumes_lots_in_order_same_symbol (sym : String) (r : ℚ)
    (buys : List (ℕ × Trade)) :
    ((consume sym r buys).1.map Prod.fst).Sublist (buys.map Prod.snd) ∧
    (∀ c ∈ (consume sym r buys).1, c.1.symbol = sym) ∧
    (List.Pairwise (fun a b : Trade => a.symbol = b.symbol → a.date ≤ b.date)
        (buys.map Prod.snd) →
      List.Pairwise (fun a b : Trade => a.date ≤ b.date)
        ((consume sym r buys).1.map Prod.fst)) := by
  refine ⟨consume_matched_sublist sym r buys, consume_matched_symbol sym r buys, ?_⟩
  intro hpw
  have hsub := consume_matched_sublist sym r buys
  have hpw₂ := hpw.sublist hsub
  refine hpw₂.imp_of_mem ?_
  intro a b ha hb hab
  obtain ⟨ca, hca, hcae⟩ := List.mem_map.mp ha
  obtain ⟨cb, hcb, hcbe⟩ := List.mem_map.mp hb
  have hsa : a.symbol = sym := by
    rw [← hcae]; exact consume_matched_symbol sym r buys ca hca
  have hsb : b.symbol = sym := by
    rw [← hcbe]; exact consume_matched_symbol sym r buys cb hcb
  exact hab (hsa.trans hsb.symm)

/-- C2 (amended) witness: concrete instance on a singleton BUY list with a
date-sorted BUY list, yielding date-sorted consumed lots. -/
theorem fifo_consumes_lots_in_order_same_symbol_w :
    List.Pairwise (fun a b : Trade => a.date ≤ b.date)
      ((consume ("AAPL") 50 [(0, exBuyA)]).1.map Prod.fst) :=
  (fifo_consumes_lots_in_order_same_symbol ("AAPL") 50 [(0, exBuyA)]).2.2 (by
    norm_num [exBuyA])

lemma calculateFIFOPairs_eq (trades : List Trade) :
    calculateFIFOPairs trades =
      (processSells
        (((fifoSort trades.enum).filter fun p => decide (¬p.2.side = Side.buy)).map Prod.snd)
        ((fifoSort trades.enum).filter fun p => decide (p.2.side = Side.buy))).1 := rfl

/-- C3: every emitted TradePair carries the source formulas: its stored buy
price is the contribution-weighted average `Σ(price*qty) / Σ(qty)`, its
realized P&L is `(sell.price - weightedAvg) * sell.quantity`, its percentage
is guarded by `weightedAvg > 0` and 0 otherwise, and its holding period is
`daysBetween(sell.date, firstConsumedLot.date)` — the date of the first
consumed lot, not any weighted average of dates. -/
theorem fifo_pair_fields_formulas (trades : List Trade) (pair : TradePair)
    (hp : pair ∈ calculateFIFOPairs trades) :
    ∃ s matched, matched ≠ ([] : List (Trade × ℚ)) ∧ pair = mkPair s matched ∧
      pair.sellTrade = s ∧
      pair.buyTrade.price =
        (matched.map fun c => c.1.price * c.2).sum / (matched.map fun c => c.2).sum ∧
      pair.realizedPnL = (s.price - pair.buyTrade.price) * s.quantity ∧
      pair.realizedPnLPercent =
        (if 0 < pair.buyTrade.price then
          pair.realizedPnL / (pair.buyTrade.price * s.quantity) * 100 else 0) ∧
      pair.holdingPeriod = differenceInDays s.date matched.headI.1.date := by
  rw [calculateFIFOPairs_eq] at hp
  obtain ⟨s, matched, hne, hpair⟩ := pairs_shape _ _ pair hp
  subst hpair
  refine ⟨s, matched, hne, rfl, rfl, ?_, ?_, ?_, ?_⟩
  · simp [mkPair, foldl_add_map]
  · simp [mkPair]
  · simp [mkPair]
  · simp [mkPair]

def exVirtualBuyA : Trade :=
  { id := "AAPL-0", symbol := "AAPL", side := Side.buy, quantity := 50, price := 15,
    date := 1, fees := 0 }

def exPairA : TradePair :=
  { buyTrade := exVirtualBuyA
    sellTrade := exSellA
    realizedPnL := 150
    realizedPnLPercent := 20
    holdingPeriod := 1 }

/-- C3 witness: the single pair produced by BUY 100 @ 15 on day 1 and SELL
50 @ 18 on day 2 satisfies the field formulas (P&L 150, holding period 1). -/
theorem fifo_pair_fields_formulas_w :
    ∃ s matched, matched ≠ ([] : List (Trade × ℚ)) ∧ exPairA = mkPair s matched ∧
      exPairA.sellTrade = s ∧
      exPairA.buyTrade.price =
        (matched.map fun c => c.1.price * c.2).sum / (matched.map fun c => c.2).sum ∧
      exPairA.realizedPnL = (s.price - exPairA.buyTrade.price) * s.quantity ∧
      exPairA.realizedPnLPercent =
        (if 0 < exPairA.buyTrade.price then
          exPairA.realizedPnL / (exPairA.buyTrade.price * s.quantity) * 100 else 0) ∧
      exPairA.holdingPeriod = differenceInDays s.date matched.headI.1.date :=
  fifo_pair_fields_formulas [exBuyA, exSellA] exPairA (by
    norm_num [calculateFIFOPairs, fifoRun, fifoSort, consume, processSell, processSells,
      mkPair, tradeLE, List.insertionSort, List.orderedInsert, exBuyA, exSellA, exPairA,
      exVirtualBuyA, List.enum, List.enumFrom, min_def, differenceInDays])

lemma processSell_oversold_none (s : Trade) (buys : List (ℕ × Trade))
    (hnn : ∀ p ∈ buys, 0 ≤ p.2.quantity) (hov : availQty s.symbol buys < s.quantity) :
    (processSell s buys).1 = none := by
  have hge := consume_remaining_ge s.symbol s.quantity buys hnn
  have hpos : 0 < (consume s.symbol s.quantity buys).2.1 := by linarith
  simp only [processSell]
  rw [if_neg]
  intro hand
  rw [hand.1] at hpos
  exact lt_irrefl 0 hpos

/-- C4: a sell emits a pair exactly when the consumption pass leaves zero
remaining quantity with at least one contribution; a sell whose quantity
exceeds the total available matching BUY quantity emits no pair (and the
whole matcher is a total function, so no input raises an error); each sell
contributes at most the one optional pair to the output, in order. -/
theorem fifo_one_pair_per_complete_match (s : Trade) (rest : List Trade)
    (buys : List (ℕ × Trade)) :
    ((processSell s buys).1.isSome ↔
      ((consume s.symbol s.quantity buys).2.1 = 0 ∧
        (consume s.symbol s.quantity buys).1 ≠ [])) ∧
    ((∀ p ∈ buys, 0 ≤ p.2.quantity) → availQty s.symbol buys < s.quantity →
      (processSell s buys).1 = none) ∧
    ((processSells (s :: rest) buys).1 =
      (processSell s buys).1.toList ++ (processSells rest (processSell s buys).2).1) := by
  refine ⟨?_, ?_, ?_⟩
  · simp only [processSell]
    split
    · rename_i hguard
      simpa using hguard
    · rename_i hguard
      simpa using hguard
  · intro hnn hov
    exact processSell_oversold_none s buys hnn hov
  · rw [processSells_cons]

def exSellOver : Trade :=
  { id := "AAPL-2", symbol := "AAPL", side := Side.sell, quantity := 100, price := 18,
    date := 3, fees := 0 }

def exBuyC : Trade :=
  { id := "AAPL-3", symbol := "AAPL", side := Side.buy, quantity := 30, price := 15,
    date := 1, fees := 0 }

/-- C4 witness: a SELL of 100 shares against a single BUY lot of 30 shares
of the same symbol produces no pair. -/
theorem fifo_one_pair_per_complete_match_w :
    (processSell exSellOver [(0, exBuyC)]).1 = none :=
  (fifo_one_pair_per_complete_match exSellOver [] [(0, exBuyC)]).2.1
    (by
      intro p hp
      rcases List.mem_singleton.mp hp with rfl
      norm_num [exBuyC])
    (by norm_num [availQty, exSellOver, exBuyC])

/-- C10: lot consumption is permanent even for a dropped sell — the state
passed on is always the consumed one (independently of whether a pair was
emitted), an oversold sell both emits nothing and leaves every lot of its
symbol at quantity 0, and the remaining sells are processed against that
consumed state. -/
theorem fifo_consumption_permanent (s : Trade) (rest : List Trade)
    (buys : List (ℕ × Trade)) :
    ((processSell s buys).2 = (consume s.symbol s.quantity buys).2.2) ∧
    ((∀ p ∈ buys, 0 ≤ p.2.quantity) → availQty s.symbol buys < s.quantity →
      (processSell s buys).1 = none ∧
      ∀ p ∈ (processSell s buys).2, p.2.symbol = s.symbol → p.2.quantity = 0) ∧
    ((processSells (s :: rest) buys).2 = (processSells rest (processSell s buys).2).2) := by
  refine ⟨processSell_snd s buys, ?_, ?_⟩
  · intro hnn hov
    constructor
    · exact processSell_oversold_none s buys hnn hov
    · intro p hp hsym
      rw [processSell_snd] at hp
      exact consume_zeroes s.symbol s.quantity buys hnn hov p hp hsym
  · rw [processSells_cons]

/-- C10 witness: the oversold SELL of 100 against a 30-share lot emits no
pair, yet the lot of its symbol is left consumed to quantity 0. -/
theorem fifo_consumption_permanent_w :
    (processSell exSellOver [(0, exBuyC)]).1 = none ∧
    ∀ p ∈ (processSell exSellOver [(0, exBuyC)]).2,
      p.2.symbol = exSellOver.symbol → p.2.quantity = 0 :=
  (fifo_consumption_permanent exSellOver [] [(0, exBuyC)]).2.1
    (by
      intro p hp
      rcases List.mem_singleton.mp hp with rfl
      norm_num [exBuyC])
    (by norm_num [availQty, exSellOver, exBuyC])

/-! Helper lemma about the normalizer. -/


/-- Every row that the normalizer turns into a record passed all the row
validations: present non-blank instrument, a transaction code mapping to BUY
or SELL, a parsed positive quantity, a numeric amount different from 0, and
a present non-blank activity date. -/
lemma processRow_some_implies (row : RawRow) (i : ℕ) (t : Trade)
    (h : processRow row i = some t) :
    (∃ instr, row.instrument = some instr ∧ jsTrim instr ≠ "") ∧
    (∃ tc side, row.transCode = some tc ∧ sideOfCode tc = some side ∧
      (side = Side.buy ∨ side = Side.sell)) ∧
    (∃ q, row.quantity = JsNum.num q ∧ 0 < q) ∧
    row.amount ≠ JsNum.num 0 ∧ row.amount ≠ JsNum.nan ∧
    (∃ d, row.activityDate = some d ∧ jsTrim d ≠ "") := by
  obtain ⟨instF, tcF, qF, aF, dF, dvF⟩ := row
  simp only [processRow] at h
  cases instF with
  | none => simp at h
  | some instr =>
    cases tcF with
    | none => simp at h
    | some tc =>
      simp only at h
      by_cases hinstr : jsTrim instr = ""
      · rw [if_pos hinstr] at h
        simp at h
      · rw [if_neg hinstr] at h
        cases hside : sideOfCode tc with
        | none =>
          simp only [hside] at h
          exact Option.noConfusion h
        | some side =>
          simp only [hside] at h
          by_cases hbs : ¬(side = Side.buy ∨ side = Side.sell)
          · rw [if_pos hbs] at h
            simp at h
          · rw [if_neg hbs] at h
            cases qF with
            | nan => simp at h
            | num q =>
              simp only at h
              by_cases hqle : q ≤ 0
              · rw [if_pos hqle] at h
                simp at h
              · rw [if_neg hqle] at h
                by_cases ha : aF = JsNum.num 0
                · rw [if_neg (by simpa using ha)] at h
                  simp at h
                · rw [if_pos (by simpa using ha)] at h
                  cases aF with
                  | nan =>
                    by_cases hsb : side = Side.buy
                    · simp only [if_pos hsb, jsAbs, jsDiv] at h
                      exact Option.noConfusion h
                    · simp only [if_neg hsb, jsAbs, jsDiv] at h
                      exact Option.noConfusion h
                  | num a =>
                    have hqne : ¬q = 0 := fun hq0 => hqle (le_of_eq hq0)
                    refine ⟨⟨instr, rfl, hinstr⟩, ⟨tc, side, rfl, hside, not_not.mp hbs⟩,
                      ⟨q, rfl, lt_of_not_le hqle⟩, ha, by simp, ?_⟩
                    by_cases hsb : side = Side.buy
                    · simp only [if_pos hsb, jsAbs, jsDiv, if_neg hqne] at h
                      by_cases hple : |a| / q ≤ 0
                      · rw [if_pos hple] at h
                        simp at h
                      · rw [if_neg hple] at h
                        cases dF with
                        | none => simp at h
                        | some d =>
                          simp only at h
                          by_cases hd : jsTrim d = ""
                          · rw [if_pos hd] at h
                            simp at h
                          · exact ⟨d, rfl, hd⟩
                    · simp only [if_neg hsb, jsAbs, jsDiv, if_neg hqne] at h
                      by_cases hple : a / q ≤ 0
                      · rw [if_pos hple] at h
                        simp at h
                      · rw [if_neg hple] at h
                        cases dF with
                        | none => simp at h
                        | some d =>
                          simp only at h
                          by_cases hd : jsTrim d = ""
                          · rw [if_pos hd] at h
                            simp at h
                          · exact ⟨d, rfl, hd⟩

/-- C5: the normalizer derives the price from the amount — for a BUY row
`price = abs(amount) / quantity`, for a SELL row `price = amount / quantity`
— and skips the row when the amount is 0 or the computed price is not
positive (the not-finite case of the source is unrepresentable over ℚ and
arises only from NaN amounts, which are also skipped). -/
theorem parse_price_derivation (row : RawRow) (i : ℕ) (instr tc d : String) (q a : ℚ)
    (hI : row.instrument = some instr) (hT : row.transCode = some tc)
    (hQ : row.quantity = JsNum.num q) (hA : row.amount = JsNum.num a)
    (hD : row.activityDate = some d)
    (hinstr : jsTrim instr ≠ "") (hd : jsTrim d ≠ "") (hq : 0 < q) :
    (sideOfCode tc = some Side.buy →
      (a ≠ 0 → ∃ t, processRow row i = some t ∧ t.price = |a| / q ∧
        t.side = Side.buy ∧ t.quantity = q) ∧
      ((a = 0 ∨ |a| / q ≤ 0) → processRow row i = none)) ∧
    (sideOfCode tc = some Side.sell →
      (a ≠ 0 → 0 < a / q → ∃ t, processRow row i = some t ∧ t.price = a / q ∧
        t.side = Side.sell ∧ t.quantity = q) ∧
      ((a = 0 ∨ a / q ≤ 0) → processRow row i = none)) := by
  have hqne : ¬q = 0 := hq.ne'
  constructor
  · intro hside
    constructor
    · intro ha
      have hple : ¬(|a| / q ≤ 0) := not_le.mpr (div_pos (abs_pos.mpr ha) hq)
      refine ⟨⟨instr ++ "-" ++ toString i, jsTrim instr, Side.buy, q, |a| / q, row.dateVal, 0⟩,
        ?_, rfl, rfl, rfl⟩
      simp only [processRow, hI, hT, hQ, hA, hD, hside]
      simp [hinstr, hd, not_le.mpr hq, hqne, ha, jsAbs, jsDiv, hple, abs_of_pos hq]
    · intro ha0
      have ha : a = 0 := by
        rcases ha0 with ha | hle
        · exact ha
        · by_contra hne
          exact absurd hle (not_le.mpr (div_pos (abs_pos.mpr hne) hq))
      subst ha
      simp only [processRow, hI, hT, hQ, hA, hD, hside]
      simp [hinstr, not_le.mpr hq]
  · intro hside
    constructor
    · intro ha hpos
      have hple : ¬(a / q ≤ 0) := not_le.mpr hpos
      refine ⟨⟨instr ++ "-" ++ toString i, jsTrim instr, Side.sell, q, a / q, row.dateVal, 0⟩,
        ?_, rfl, rfl, rfl⟩
      simp only [processRow, hI, hT, hQ, hA, hD, hside]
      simp [hinstr, hd, not_le.mpr hq, hqne, ha, jsDiv, hple, abs_of_pos hq]
    · intro ha0
      by_cases ha : a = 0
      · subst ha
        simp only [processRow, hI, hT, hQ, hA, hD, hside]
        simp [hinstr, not_le.mpr hq]
      · have hle : a / q ≤ 0 := by
          rcases ha0 with ha0 | hle
          · exact absurd ha0 ha
          · exact hle
        simp only [processRow, hI, hT, hQ, hA, hD, hside]
        simp [hinstr, not_le.mpr hq, hqne, ha, jsDiv, hle]

def rowBuy5 : RawRow :=
  { instrument := some ("AAPL"), transCode := some ("Buy"), quantity := JsNum.num 100,
    amount := JsNum.num (-1500), activityDate := some ("1/2/2024"), dateVal := 1 }

def rowSell5 : RawRow :=
  { instrument := some ("AAPL"), transCode := some ("Sell"), quantity := JsNum.num 100,
    amount := JsNum.num 1600, activityDate := some ("1/3/2024"), dateVal := 2 }

/-- C5 witness: the spec's own examples — a BUY row with Amount -1500.00 and
Quantity 100 yields price 15.00, and a SELL row with Amount 1600.00 and
Quantity 100 yields price 16.00. -/
theorem parse_price_derivation_w :
    (∃ t, processRow rowBuy5 0 = some t ∧ t.price = 15 ∧ t.side = Side.buy ∧
      t.quantity = 100) ∧
    (∃ t, processRow rowSell5 1 = some t ∧ t.price = 16 ∧ t.side = Side.sell ∧
      t.quantity = 100) := by
  constructor
  · obtain ⟨t, ht, hp, hs, hqt⟩ :=
      ((parse_price_derivation rowBuy5 0 ("AAPL") ("Buy") ("1/2/2024") 100 (-1500)
        rfl rfl rfl rfl rfl (by decide) (by decide) (by norm_num)).1 (by decide)).1
        (by norm_num)
    refine ⟨t, ht, ?_, hs, hqt⟩
    rw [hp]
    norm_num
  · obtain ⟨t, ht, hp, hs, hqt⟩ :=
      ((parse_price_derivation rowSell5 1 ("AAPL") ("Sell") ("1/3/2024") 100 1600
        rfl rfl rfl rfl rfl (by decide) (by decide) (by norm_num)).2 (by decide)).1
        (by norm_num) (by norm_num)
    refine ⟨t, ht, ?_, hs, hqt⟩
    rw [hp]
    norm_num

/-- C9: the normalizer fails in exactly two cases — an empty row list gives
the empty-input error, and a nonempty row list in which every row is
filtered out gives the no-valid-records error; otherwise it returns the
surviving records.  Each listed row-level failure (missing instrument or
transaction-code field, blank instrument, unrecognized transaction code,
unparseable or non-positive quantity, zero or unparseable amount, blank or
missing activity date) makes `processRow` drop that row alone, and the
output is the `filterMap` of the per-row processor, so the other rows are
unaffected. -/
theorem parse_error_cases (rows : List RawRow) (row : RawRow) (i : ℕ) :
    (parseCSVData rows = Except.error ParseError.emptyInput ↔ rows = []) ∧
    (parseCSVData rows = Except.error ParseError.noValidRecords ↔
      (rows ≠ [] ∧ rows.enum.filterMap (fun p => processRow p.2 p.1) = [])) ∧
    ((∃ ts, parseCSVData rows = Except.ok ts) ↔
      (rows ≠ [] ∧ rows.enum.filterMap (fun p => processRow p.2 p.1) ≠ [])) ∧
    (rows ≠ [] → rows.enum.filterMap (fun p => processRow p.2 p.1) ≠ [] →
      parseCSVData rows = Except.ok (rows.enum.filterMap fun p => processRow p.2 p.1)) ∧
    ((row.instrument = none ∨ row.transCode = none) → processRow row i = none) ∧
    (∀ instr, row.instrument = some instr → jsTrim instr = "" → processRow row i = none) ∧
    (∀ tc, row.transCode = some tc → sideOfCode tc = none → processRow row i = none) ∧
    ((row.quantity = JsNum.nan ∨ ∃ q, row.quantity = JsNum.num q ∧ q ≤ 0) →
      processRow row i = none) ∧
    ((row.amount = JsNum.num 0 ∨ row.amount = JsNum.nan) → processRow row i = none) ∧
    ((row.activityDate = none ∨ ∃ d, row.activityDate = some d ∧ jsTrim d = "") →
      processRow row i = none) := by
  refine ⟨?_, ?_, ?_, ?_, ?_, ?_, ?_, ?_, ?_, ?_⟩
  · cases rows with
    | nil => simp [parseCSVData]
    | cons r rs =>
      simp only [parseCSVData]
      split <;> simp
  · cases rows with
    | nil => simp [parseCSVData]
    | cons r rs =>
      simp only [parseCSVData]
      split <;> rename_i hP <;> simp [hP]
  · cases rows with
    | nil => simp [parseCSVData]
    | cons r rs =>
      simp only [parseCSVData]
      split <;> rename_i hP <;> simp [hP]
  · intro h1 h2
    cases rows with
    | nil => exact absurd rfl h1
    | cons r rs =>
      simp only [parseCSVData]
      rw [if_neg h2]
  · intro hcase
    cases hpr : processRow row i with
    | none => rfl
    | some t =>
      obtain ⟨⟨instr, hI, _⟩, ⟨tc, side, hT, _, _⟩, _, _, _, _⟩ :=
        processRow_some_implies row i t hpr
      rcases hcase with hc | hc
      · rw [hc] at hI; exact Option.noConfusion hI
      · rw [hc] at hT; exact Option.noConfusion hT
  · intro instr hI hblank
    cases hpr : processRow row i with
    | none => rfl
    | some t =>
      obtain ⟨⟨instr₂, hI₂, hne⟩, _, _, _, _, _⟩ := processRow_some_implies row i t hpr
      have he : instr = instr₂ := by
        rw [hI] at hI₂
        exact (Option.some.injEq _ _).mp hI₂
      exact (hne (he ▸ hblank)).elim
  · intro tc hT hmap
    cases hpr : processRow row i with
    | none => rfl
    | some t =>
      obtain ⟨_, ⟨tc₂, side, hT₂, hside, _⟩, _, _, _, _⟩ := processRow_some_implies row i t hpr
      have he : tc = tc₂ := by
        rw [hT] at hT₂
        exact (Option.some.injEq _ _).mp hT₂
      rw [← he, hmap] at hside
      exact Option.noConfusion hside
  · intro hcase
    cases hpr : processRow row i with
    | none => rfl
    | some t =>
      obtain ⟨_, _, ⟨q, hQ, hq⟩, _, _, _⟩ := processRow_some_implies row i t hpr
      rcases hcase with hc | ⟨q₂, hc, hle⟩
      · rw [hc] at hQ
        exact JsNum.noConfusion hQ
      · rw [hc] at hQ
        have he : q₂ = q := (JsNum.num.injEq _ _).mp hQ
        exact absurd hq (not_lt.mpr (he ▸ hle))
  · intro hcase
    cases hpr : processRow row i with
    | none => rfl
    | some t =>
      obtain ⟨_, _, _, hA0, hAnan, _⟩ := processRow_some_implies row i t hpr
      rcases hcase with hc | hc
      · exact absurd hc hA0
      · exact absurd hc hAnan
  · intro hcase
    cases hpr : processRow row i with
    | none => rfl
    | some t =>
      obtain ⟨_, _, _, _, _, ⟨d₂, hD₂, hdne⟩⟩ := processRow_some_implies row i t hpr
      rcases hcase with hc | ⟨d, hc, hblank⟩
      · rw [hc] at hD₂
        exact Option.noConfusion hD₂
      · have he : d = d₂ := by
          rw [hc] at hD₂
          exact (Option.some.injEq _ _).mp hD₂
        exact (hdne (he ▸ hblank)).elim

def rowBad9 : RawRow :=
  { instrument := some ("AAPL"), transCode := some ("XYZ"), quantity := JsNum.num 10,
    amount := JsNum.num 100, activityDate := some ("1/2/2024"), dateVal := 1 }

/-- C9 witness: the empty row list gives the empty-input error; a row with
an unrecognized transaction code is dropped, so a file holding only that row
gives the no-valid-records error, while a file holding one valid BUY row
parses successfully. -/
theorem parse_error_cases_w :
    parseCSVData [] = Except.error ParseError.emptyInput ∧
    processRow rowBad9 0 = none ∧
    parseCSVData [rowBad9] = Except.error ParseError.noValidRecords ∧
    parseCSVData [rowBuy5] =
      Except.ok ([rowBuy5].enum.filterMap fun p => processRow p.2 p.1) := by
  have hbad : processRow rowBad9 0 = none :=
    (parse_error_cases [] rowBad9 0).2.2.2.2.2.2.1 ("XYZ") rfl (by decide)
  refine ⟨(parse_error_cases [] rowBad9 0).1.mpr rfl, hbad, ?_, ?_⟩
  · exact (parse_error_cases [rowBad9] rowBad9 0).2.1.mpr
      ⟨by simp, by simp [List.enum, List.enumFrom, List.filterMap_cons, hbad]⟩
  · refine (parse_error_cases [rowBuy5] rowBad9 0).2.2.2.1 (by simp) ?_
    have h1 : sideOfCode ("Buy") = some Side.buy := by decide
    have h2 : ¬jsTrim ("AAPL") = "" := by decide
    have h3 : ¬jsTrim ("1/2/2024") = "" := by decide
    norm_num [processRow, rowBuy5, h1, h2, h3, jsDiv, jsAbs, List.enum, List.enumFrom,
      List.filterMap_cons]
